import Mathlib

/-!
Shallow embedding of the uWebSocket real-time event manager
(src: `UWebSocketManager` class) and proofs about its spec claims.

JavaScript `Map<string, V>` values are embedded as association lists
`List (String × V)` with the usual Map operations (`mapGet`, `mapSet`,
`mapDelete`), and JavaScript `Set<string>` values as duplicate-free
`List String` with insertion-order append (`setAdd`, `List.erase`).
Side effects (socket sends and Redis publishes) are reified as a
`List Effect` returned by the embedded operations.
-/

namespace UWS

/-- Identity record attached to a socket at upgrade time
(`userData = { id, email, collection, role }` in `upgrade`). -/
structure UserInfo where
  id : String
  email : Option String
  collection : String
  role : Option String
deriving DecidableEq, Repr

/-- Event kinds of `RealtimeEventPayload.type`. -/
inductive EventType where
  | create
  | update
  | delete
deriving DecidableEq, Repr

/-- Actor identity embedded in an event (`RealtimeEventPayload.user`). -/
structure EvActor where
  id : String
  email : Option String
  collection : Option String
deriving DecidableEq, Repr

/-- `RealtimeEventPayload` from src types: the event handed to `emitEvent`.
The untyped document snapshot is embedded as a `String`. -/
structure Event where
  type : EventType
  collection : String
  id : String
  doc : Option String
  user : Option EvActor
  timestamp : String
deriving DecidableEq, Repr

/-- Data carried by a send or publish: either a realtime event, a
user-left notification body with the departing user id, or untyped relayed data. -/
inductive MsgData where
  | ev (e : Event)
  | userLeft (userId : String)
  | raw (s : String)
deriving DecidableEq, Repr

/-- Per-socket user data (`WebSocketUserData`): optional identity plus the
set of rooms this socket has joined (`userData.rooms`). -/
structure Conn where
  user : Option UserInfo
  rooms : List String
deriving DecidableEq, Repr

/-- Observable side effects of the manager: a JSON frame sent to one
socket (`sendToSocket`) or a message published to the shared Redis
channel (`publishToRedis`). -/
inductive Effect where
  | send (sid : String) (label : String) (d : MsgData)
  | publish (kind : String) (room : String) (label : String) (d : MsgData)
deriving DecidableEq, Repr

/-- JavaScript `Map.get`: value at the key, if present. -/
def mapGet {α : Type} : List (String × α) → String → Option α
  | [], _ => none
  | (k2, v) :: rest, k => if k2 = k then some v else mapGet rest k

/-- JavaScript `Map.set`: replace the binding in place, else append. -/
def mapSet {α : Type} : List (String × α) → String → α → List (String × α)
  | [], k, v => [(k, v)]
  | (k2, v2) :: rest, k, v =>
      if k2 = k then (k2, v) :: rest else (k2, v2) :: mapSet rest k v

/-- JavaScript `Map.delete`: remove the binding for the key. -/
def mapDelete {α : Type} : List (String × α) → String → List (String × α)
  | [], _ => []
  | (k2, v) :: rest, k => if k2 = k then rest else (k2, v) :: mapDelete rest k

/-- Map representation invariant: keys occur at most once. -/
def keysNodup {α : Type} (l : List (String × α)) : Prop :=
  (l.map Prod.fst).Nodup

/-- JavaScript `Set.add`: append the element if it is not yet present
(JS sets iterate in insertion order). -/
def setAdd (s : List String) (x : String) : List String :=
  if x ∈ s then s else s ++ [x]

/-- Whole mutable state of the manager: the connection table
(`this.sockets`) and the room registry (`this.rooms`). -/
structure MState where
  sockets : List (String × Conn)
  rooms : List (String × List String)
deriving DecidableEq, Repr

/-- `joinRoom(socketId, roomName)`: create the room if absent, add the id. -/
def joinRoom (rs : List (String × List String)) (sid room : String) :
    List (String × List String) :=
  mapSet rs room (setAdd ((mapGet rs room).getD []) sid)

/-- `leaveRoom(socketId, roomName)`: remove the id; delete the room when
its member set becomes empty; no-op when the room is absent. -/
def leaveRoom (rs : List (String × List String)) (sid room : String) :
    List (String × List String) :=
  match mapGet rs room with
  | none => rs
  | some ms =>
      let ms2 := ms.erase sid
      if ms2 = [] then mapDelete rs room else mapSet rs room ms2

/-- `getSocketsInRoom(roomName)`: snapshot of the member ids, else `[]`. -/
def getSocketsInRoom (rs : List (String × List String)) (room : String) :
    List String :=
  (mapGet rs room).getD []

/-- `publishToRedis(type, room, eventName, data)`: one publish effect when
a pub client is configured (`this.pubClient` non-null), else nothing. -/
def publishToRedis (hasPub : Bool) (kind room label : String) (d : MsgData) :
    List Effect :=
  if hasPub then [Effect.publish kind room label d] else []

/-- `broadcastToRoom(roomName, data, eventName, excludeSocketId?)`: send to
every member of the room present in the connection table, skipping the
excluded id, then publish a `room-broadcast` envelope to Redis. -/
def broadcastToRoom (rs : List (String × List String))
    (so : List (String × Conn)) (hasPub : Bool) (room : String) (d : MsgData)
    (label : String) (excl : Option String) : List Effect :=
  ((getSocketsInRoom rs room).filterMap (fun sid =>
    if excl = some sid then none
    else
      match mapGet so sid with
      | some _ => some (Effect.send sid label d)
      | none => none))
  ++ publishToRedis hasPub "room-broadcast" room label d

/-- A deserialized message from the shared Redis channel: `publishToRedis`
writes both `event` and `message` keys, and the inbound handler reads
`event` for kind `event` and `message` for kind `room-broadcast`. -/
structure RelayEnvelope where
  kind : String
  room : String
  eventName : String
  event : MsgData
  message : MsgData
deriving Repr

/-- `handleRedisMessage(channel, message)`: on kind `event` or
`room-broadcast`, broadcast the carried data to the named room. -/
def handleRedisMessage (st : MState) (hasPub : Bool) (env : RelayEnvelope) :
    List Effect :=
  if env.kind = "event" then
    broadcastToRoom st.rooms st.sockets hasPub env.room env.event env.eventName none
  else if env.kind = "room-broadcast" then
    broadcastToRoom st.rooms st.sockets hasPub env.room env.message env.eventName none
  else []

/-- Plugin options consumed by the dispatcher (`this.options`): optional
global filter, optional global transform, optional per-collection
authorization table, and whether a Redis pub client is configured. -/
structure Options where
  shouldEmit : Option (Event → Bool)
  transformEvent : Option (Event → Event)
  authorize : Option (List (String × (UserInfo → Event → Bool)))
  hasPub : Bool

/-- The gate `if (shouldEmit && !shouldEmit(event)) return`: the event
proceeds iff no filter is configured or the filter returns true. -/
def passesFilter (opts : Options) (e : Event) : Bool :=
  match opts.shouldEmit with
  | some p => p e
  | none => true

/-- `const finalEvent = transformEvent ? transformEvent(event) : event`. -/
def finalEventOf (opts : Options) (e : Event) : Event :=
  match opts.transformEvent with
  | some f => f e
  | none => e

/-- The authorized per-member delivery loop of `emitEvent`: for each member
id of the target room, `this.sockets.get(socketId)` followed by an
unguarded `socket.getUserData()`; a member id absent from the connection
table makes that read undefined, embedded as `none` (the loop, and with it
`emitEvent`, does not complete). Members whose user data has no `user`
are skipped; otherwise the predicate decides delivery of `payload:event`. -/
def authSends (so : List (String × Conn)) (handler : UserInfo → Event → Bool)
    (fe : Event) : List String → Option (List Effect)
  | [] => some []
  | sid :: rest =>
      match mapGet so sid with
      | none => none
      | some conn =>
          let here : List Effect :=
            match conn.user with
            | some u =>
                if handler u fe then [Effect.send sid "payload:event" (MsgData.ev fe)]
                else []
            | none => []
          (authSends so handler fe rest).map (fun tl => here ++ tl)

/-- `emitEvent(event)`: filter, transform, room-scoped delivery (authorized
per member, or broadcast when no authorization is configured, or nothing
when authorization exists but has no predicate for the collection), then
one `payload:event:all` send per registered connection, then a Redis
publish of kind `event`. The target room and the predicate are selected
from the original `event.collection`; the delivered data is `finalEvent`.
Returns `none` when the authorized loop hits a member id that is absent
from the connection table. -/
def emitEvent (opts : Options) (st : MState) (e : Event) :
    Option (List Effect) :=
  if passesFilter opts e = false then some []
  else
    let fe := finalEventOf opts e
    let room := "collection:" ++ e.collection
    let roomEffs? : Option (List Effect) :=
      match opts.authorize with
      | some auth =>
          match mapGet auth e.collection with
          | some handler => authSends st.sockets handler fe (getSocketsInRoom st.rooms room)
          | none => some []
      | none =>
          some (broadcastToRoom st.rooms st.sockets opts.hasPub room
            (MsgData.ev fe) "payload:event" none)
    match roomEffs? with
    | none => none
    | some roomEffs =>
        some (roomEffs
          ++ st.sockets.map (fun p => Effect.send p.1 "payload:event:all" (MsgData.ev fe))
          ++ publishToRedis opts.hasPub "event" room "payload:event" (MsgData.ev fe))

/-- Modelled from the spec for claim C2 comparison: the variant of
`emitEvent` in which, as the spec words demand, all subsequent steps use
the transformed event — the target room name and the per-collection
predicate selection are computed from `finalEvent.collection`. -/
def emitEventSpecTransformed (opts : Options) (st : MState) (e : Event) :
    Option (List Effect) :=
  if passesFilter opts e = false then some []
  else
    let fe := finalEventOf opts e
    let room := "collection:" ++ fe.collection
    let roomEffs? : Option (List Effect) :=
      match opts.authorize with
      | some auth =>
          match mapGet auth fe.collection with
          | some handler => authSends st.sockets handler fe (getSocketsInRoom st.rooms room)
          | none => some []
      | none =>
          some (broadcastToRoom st.rooms st.sockets opts.hasPub room
            (MsgData.ev fe) "payload:event" none)
    match roomEffs? with
    | none => none
    | some roomEffs =>
        some (roomEffs
          ++ st.sockets.map (fun p => Effect.send p.1 "payload:event:all" (MsgData.ev fe))
          ++ publishToRedis opts.hasPub "event" room "payload:event" (MsgData.ev fe))

/-- `room.startsWith(p)` embedded on the underlying character lists so
that it evaluates by reduction; semantically identical to the string
prefix test of the source. -/
def strStartsWith (s p : String) : Bool :=
  p.data.isPrefixOf s.data

/-- The close handler notifies leave only for two hardcoded room-name
prefixes, with a prefix-specific label. -/
def userLeftLabel (room : String) : Option String :=
  if strStartsWith room "project:" then some "project:user-left"
  else if strStartsWith room "actor:" then some "actor:user-left"
  else none

/-- One iteration of the close handler room loop: broadcast the user-left
notification (when the room name matches a notifying prefix and the
closing socket has an identity), then remove the socket from the room. -/
def closeStep (so : List (String × Conn)) (hasPub : Bool) (sid : String)
    (user : Option UserInfo) (acc : List Effect × List (String × List String))
    (room : String) : List Effect × List (String × List String) :=
  let effs : List Effect :=
    match user, userLeftLabel room with
    | some u, some lbl =>
        broadcastToRoom acc.2 so hasPub room (MsgData.userLeft u.id) lbl (some sid)
    | _, _ => []
  (acc.1 ++ effs, leaveRoom acc.2 sid room)

/-- The `close` handler: iterate over `userData.rooms` with `closeStep`,
then delete the socket from the connection table. -/
def closeConn (st : MState) (hasPub : Bool) (sid : String)
    (user : Option UserInfo) (connRooms : List String) :
    List Effect × MState :=
  let res := connRooms.foldl (closeStep st.sockets hasPub sid user) ([], st.rooms)
  (res.1, ⟨mapDelete st.sockets sid, res.2⟩)

/-- Outcome of the resumed handshake task in `upgrade`: silent stop, a 401
rejection written to the transport, or a completed `res.upgrade`. -/
inductive UpgradeResult where
  | silent
  | rejected (reason : String)
  | upgraded (u : UserInfo)
deriving DecidableEq, Repr

/-- The async continuation of the `upgrade` handler after token
verification and identity lookup, as a function of the abort flag
observed on resumption, whether verification or lookup threw, and the
looked-up identity. Follows the source control flow: the catch branch
checks the abort flag before writing the 401; the success branch checks
the abort flag immediately after the suspension, again before upgrading,
and writes the user-not-found rejection only after the first check. -/
def upgradeResume (aborted errored : Bool) (userDoc : Option UserInfo) :
    UpgradeResult :=
  if errored then
    if aborted then UpgradeResult.silent
    else UpgradeResult.rejected "Invalid authentication token"
  else if aborted then UpgradeResult.silent
  else
    match userDoc with
    | none => UpgradeResult.rejected "User not found"
    | some u => if aborted then UpgradeResult.silent else UpgradeResult.upgraded u

/-- Number of transport writes performed for an upgrade outcome: a
rejection and a completed upgrade each write once; silent stop writes
nothing. -/
def transportResponses : UpgradeResult → Nat
  | UpgradeResult.silent => 0
  | UpgradeResult.rejected _ => 1
  | UpgradeResult.upgraded _ => 1

/-- Whether the upgrade outcome leads to a connection being registered in
the connection table (registration happens on the subsequent `open` of a
completed upgrade). -/
def registersConnection : UpgradeResult → Bool
  | UpgradeResult.upgraded _ => true
  | _ => false

/-- Effect of the upgrade outcome on the connection table: only a
completed upgrade ever leads to an insertion. -/
def applyUpgradeResult (st : MState) (sid : String) : UpgradeResult → MState
  | UpgradeResult.upgraded u => { st with sockets := mapSet st.sockets sid ⟨some u, []⟩ }
  | _ => st

/-- The registration method `on(eventName, handler)` of the custom handler
registry `this.customHandlers` (the name `on` is reserved in Lean);
handler bodies are abstracted, identified by a number. -/
def onRegister (m : List (String × Nat)) (eventName : String) (h : Nat) :
    List (String × Nat) :=
  mapSet m eventName h

/-- A sequence of `on(label, handler)` registrations applied in order. -/
def registerAll (regs : List (String × Nat)) : List (String × Nat) :=
  regs.foldl (fun m p => onRegister m p.1 p.2) []

/-- The handler picked for a label by a registration sequence: the most
recently registered one. -/
def lastReg : List (String × Nat) → String → Option Nat
  | [], _ => none
  | p :: rest, ty =>
      match lastReg rest ty with
      | some h => some h
      | none => if p.1 = ty then some p.2 else none

/-- What `handleMessage` invokes for an inbound `{type, data}` frame. -/
inductive Dispatch where
  | joinCollection
  | unsubscribe
  | custom (h : Nat)
  | unknownIgnored
deriving DecidableEq, Repr

/-- The `switch` of `handleMessage`: the labels `subscribe` and
`join-collection` run the built-in `handleJoinCollection`, `unsubscribe`
runs the built-in `handleUnsubscribe`, and any other label runs the
registered custom handler if one exists, else is logged and ignored. -/
def handleMessageDispatch (handlers : List (String × Nat)) (ty : String) :
    Dispatch :=
  if ty = "subscribe" then Dispatch.joinCollection
  else if ty = "join-collection" then Dispatch.joinCollection
  else if ty = "unsubscribe" then Dispatch.unsubscribe
  else
    match mapGet handlers ty with
    | some h => Dispatch.custom h
    | none => Dispatch.unknownIgnored

/-- The `open` handler: `this.sockets.set(socketId, ws)`, where the socket
carries the identity from the upgrade and an empty room set. -/
def applyOpen (st : MState) (sid : String) (u : Option UserInfo) : MState :=
  { st with sockets := mapSet st.sockets sid ⟨u, []⟩ }

/-- One iteration of `handleJoinCollection`: register the socket in the
room `collection:<coll>` and add the room to the socket room set. -/
def joinOne (sid : String) (st : MState) (coll : String) : MState :=
  let room := "collection:" ++ coll
  { sockets :=
      match mapGet st.sockets sid with
      | some conn => mapSet st.sockets sid ⟨conn.user, setAdd conn.rooms room⟩
      | none => st.sockets,
    rooms := joinRoom st.rooms sid room }

/-- `handleJoinCollection(ws, collection)`: join each listed collection. -/
def handleJoinCollection (st : MState) (sid : String) (colls : List String) :
    MState :=
  colls.foldl (joinOne sid) st

/-- One iteration of `handleUnsubscribe`: remove the socket from the room
`collection:<coll>` and delete the room from the socket room set. -/
def leaveOne (sid : String) (st : MState) (coll : String) : MState :=
  let room := "collection:" ++ coll
  { sockets :=
      match mapGet st.sockets sid with
      | some conn => mapSet st.sockets sid ⟨conn.user, conn.rooms.erase room⟩
      | none => st.sockets,
    rooms := leaveRoom st.rooms sid room }

/-- `handleUnsubscribe(ws, collection)`: leave each listed collection. -/
def handleUnsubscribe (st : MState) (sid : String) (colls : List String) :
    MState :=
  colls.foldl (leaveOne sid) st

/-- State change of the `close` handler for a registered socket: the
effect part of `closeConn` is discarded here. -/
def applyClose (st : MState) (sid : String) : MState :=
  match mapGet st.sockets sid with
  | none => st
  | some conn => (closeConn st false sid conn.user conn.rooms).2

/-- Public operations on the manager state, as named by claim C3: open,
close, message-based join and leave, and the public registry methods
`joinRoom` and `leaveRoom` (which touch only the room registry). -/
inductive Op where
  | conn (sid : String) (u : Option UserInfo)
  | disc (sid : String)
  | msgJoin (sid : String) (colls : List String)
  | msgLeave (sid : String) (colls : List String)
  | rawJoin (sid : String) (room : String)
  | rawLeave (sid : String) (room : String)

/-- Apply one public operation. -/
def applyOp (st : MState) : Op → MState
  | Op.conn sid u => applyOpen st sid u
  | Op.disc sid => applyClose st sid
  | Op.msgJoin sid colls => handleJoinCollection st sid colls
  | Op.msgLeave sid colls => handleUnsubscribe st sid colls
  | Op.rawJoin sid room => { st with rooms := joinRoom st.rooms sid room }
  | Op.rawLeave sid room => { st with rooms := leaveRoom st.rooms sid room }

/-- The empty manager state. -/
def initState : MState := ⟨[], []⟩

/-- Run a sequence of public operations from the empty state. -/
def runOps (ops : List Op) : MState := ops.foldl applyOp initState

/-- Membership symmetry: a registered connection lists room `r` iff the
registry lists the connection id among the members of `r`. -/
def Symm (st : MState) : Prop :=
  ∀ sid conn, mapGet st.sockets sid = some conn →
    ∀ r, r ∈ conn.rooms ↔ sid ∈ getSocketsInRoom st.rooms r

/-- States reachable through the event-loop lifecycle: open (with a fresh
id, as produced by `randomUUID`), close, and the built-in message-based
join and leave of a registered socket. -/
inductive ReachableM : MState → Prop where
  | init : ReachableM initState
  | openStep {st : MState} {sid : String} {u : Option UserInfo} :
      ReachableM st → mapGet st.sockets sid = none →
      ReachableM (applyOpen st sid u)
  | closeStep {st : MState} {sid : String} :
      ReachableM st → ReachableM (applyClose st sid)
  | msgJoinStep {st : MState} {sid : String} {colls : List String} {c : Conn} :
      ReachableM st → mapGet st.sockets sid = some c →
      ReachableM (handleJoinCollection st sid colls)
  | msgLeaveStep {st : MState} {sid : String} {colls : List String} {c : Conn} :
      ReachableM st → mapGet st.sockets sid = some c →
      ReachableM (handleUnsubscribe st sid colls)

/-- Registry-only operations, for the room registry claims. -/
inductive RoomOp where
  | join (sid : String) (room : String)
  | leave (sid : String) (room : String)

/-- Apply one registry operation. -/
def applyRoomOp (rs : List (String × List String)) :
    RoomOp → List (String × List String)
  | RoomOp.join sid room => joinRoom rs sid room
  | RoomOp.leave sid room => leaveRoom rs sid room

/-- Run registry operations from the empty registry. -/
def runRoomOps (ops : List RoomOp) : List (String × List String) :=
  ops.foldl applyRoomOp []

theorem mapGet_mapSet_self {α : Type} (l : List (String × α)) (k : String)
    (v : α) : mapGet (mapSet l k v) k = some v := by
  induction l with
  | nil => simp [mapGet, mapSet]
  | cons p rest ih =>
      obtain ⟨k2, v2⟩ := p
      by_cases h : k2 = k
      · simp [mapSet, h, mapGet]
      · simp [mapSet, h, mapGet, ih]

theorem mapGet_mapSet_ne {α : Type} (l : List (String × α)) {k k2 : String}
    (v : α) (h : k2 ≠ k) : mapGet (mapSet l k v) k2 = mapGet l k2 := by
  have hne : k ≠ k2 := fun hh => h hh.symm
  induction l with
  | nil => simp [mapGet, mapSet, hne]
  | cons p rest ih =>
      obtain ⟨ka, va⟩ := p
      by_cases hka : ka = k
      · subst hka
        have hne2 : ¬ (ka = k2) := fun hh => h hh.symm
        simp [mapSet, mapGet, hne2]
      · by_cases hkb : ka = k2 <;> simp [mapSet, hka, mapGet, hkb, ih, h]

theorem mapSet_mapSet_self {α : Type} (l : List (String × α)) (k : String)
    (v w : α) : mapSet (mapSet l k v) k w = mapSet l k w := by
  induction l with
  | nil => simp [mapSet]
  | cons p rest ih =>
      obtain ⟨ka, va⟩ := p
      by_cases hka : ka = k <;> simp [mapSet, hka, ih]

theorem mapGet_eq_none_of_not_mem_keys {α : Type} {l : List (String × α)}
    {k : String} (h : k ∉ l.map Prod.fst) : mapGet l k = none := by
  induction l with
  | nil => simp [mapGet]
  | cons p rest ih =>
      obtain ⟨ka, va⟩ := p
      simp only [List.map_cons, List.mem_cons, not_or] at h
      simp only [mapGet, if_neg (fun hh : ka = k => h.1 hh.symm)]
      exact ih h.2

theorem mapGet_mapDelete_self {α : Type} {l : List (String × α)} {k : String}
    (h : keysNodup l) : mapGet (mapDelete l k) k = none := by
  induction l with
  | nil => simp [mapGet, mapDelete]
  | cons p rest ih =>
      obtain ⟨ka, va⟩ := p
      simp only [keysNodup, List.map_cons, List.nodup_cons] at h
      by_cases hka : ka = k
      · subst hka
        simpa only [mapDelete, if_pos rfl] using
          mapGet_eq_none_of_not_mem_keys h.1
      · have h1 : mapDelete ((ka, va) :: rest) k = (ka, va) :: mapDelete rest k := by
          simp [mapDelete, hka]
        have h2 : mapGet ((ka, va) :: mapDelete rest k) k
            = mapGet (mapDelete rest k) k := by
          simp [mapGet, hka]
        rw [h1, h2]
        exact ih h.2


theorem mapGet_mapDelete_ne {α : Type} (l : List (String × α)) {k k2 : String}
    (h : k2 ≠ k) : mapGet (mapDelete l k) k2 = mapGet l k2 := by
  induction l with
  | nil => simp [mapDelete]
  | cons p rest ih =>
      obtain ⟨ka, va⟩ := p
      by_cases hka : ka = k
      · subst hka
        have hne : ¬ (ka = k2) := fun hh => h hh.symm
        simp [mapDelete, mapGet, hne]
      · by_cases hkb : ka = k2 <;> simp [mapDelete, hka, mapGet, hkb, ih, h]

theorem mem_keys_mapSet {α : Type} (l : List (String × α)) (k : String)
    (v : α) (x : String) :
    x ∈ (mapSet l k v).map Prod.fst ↔ x ∈ l.map Prod.fst ∨ x = k := by
  induction l with
  | nil => simp [mapSet]
  | cons p rest ih =>
      obtain ⟨ka, va⟩ := p
      by_cases hka : ka = k
      · subst hka
        simp [mapSet]
        tauto
      · simp [mapSet, hka, ih]
        tauto

theorem keysNodup_mapSet {α : Type} {l : List (String × α)} (k : String)
    (v : α) (h : keysNodup l) : keysNodup (mapSet l k v) := by
  induction l with
  | nil => simp [mapSet, keysNodup]
  | cons p rest ih =>
      obtain ⟨ka, va⟩ := p
      simp only [keysNodup, List.map_cons, List.nodup_cons] at h
      by_cases hka : ka = k
      · subst hka
        simpa [mapSet, keysNodup] using h
      · have h2 := ih h.2
        simp only [keysNodup, mapSet, if_neg hka, List.map_cons,
          List.nodup_cons]
        refine ⟨fun hm => ?_, h2⟩
        rcases (mem_keys_mapSet rest k v ka).mp hm with hin | heq
        · exact h.1 hin
        · exact hka heq

theorem mem_keys_mapDelete {α : Type} {l : List (String × α)} {k x : String}
    (h : x ∈ (mapDelete l k).map Prod.fst) : x ∈ l.map Prod.fst := by
  induction l with
  | nil => simp [mapDelete] at h
  | cons p rest ih =>
      obtain ⟨ka, va⟩ := p
      by_cases hka : ka = k
      · subst hka
        have h2 : x ∈ List.map Prod.fst rest := by
          simpa [mapDelete] using h
        simp only [List.map_cons, List.mem_cons]
        exact Or.inr h2
      · simp only [mapDelete, if_neg hka, List.map_cons, List.mem_cons] at h ⊢
        rcases h with h | h
        · exact Or.inl h
        · exact Or.inr (ih h)

theorem keysNodup_mapDelete {α : Type} {l : List (String × α)} (k : String)
    (h : keysNodup l) : keysNodup (mapDelete l k) := by
  induction l with
  | nil => simpa [mapDelete] using h
  | cons p rest ih =>
      obtain ⟨ka, va⟩ := p
      simp only [keysNodup, List.map_cons, List.nodup_cons] at h
      by_cases hka : ka = k
      · subst hka
        simpa [mapDelete, keysNodup] using h.2
      · simp only [keysNodup, mapDelete, if_neg hka, List.map_cons,
          List.nodup_cons]
        exact ⟨fun hm => h.1 (mem_keys_mapDelete hm), ih h.2⟩

theorem mem_setAdd {s : List String} {x y : String} :
    x ∈ setAdd s y ↔ x ∈ s ∨ x = y := by
  by_cases hy : y ∈ s
  · simp only [setAdd, if_pos hy]
    exact ⟨Or.inl, fun h => h.elim id (fun hx => hx ▸ hy)⟩
  · simp [setAdd, hy]

theorem self_mem_setAdd (s : List String) (x : String) : x ∈ setAdd s x :=
  mem_setAdd.mpr (Or.inr rfl)

theorem setAdd_of_mem {s : List String} {x : String} (h : x ∈ s) :
    setAdd s x = s := by
  simp [setAdd, h]

theorem setAdd_ne_nil (s : List String) (x : String) : setAdd s x ≠ [] := by
  by_cases hx : x ∈ s
  · simp only [setAdd, if_pos hx]
    intro he
    rw [he] at hx
    simp at hx
  · simp [setAdd, hx]

theorem nodup_setAdd {s : List String} (x : String) (h : s.Nodup) :
    (setAdd s x).Nodup := by
  by_cases hx : x ∈ s
  · simpa [setAdd, hx] using h
  · simp [setAdd, hx, List.nodup_append, h]

theorem eq_of_mem_of_erase_nil {ms : List String} {sid x : String}
    (he : ms.erase sid = []) (hx : x ∈ ms) : x = sid := by
  cases ms with
  | nil => simp at hx
  | cons a t =>
      by_cases ha : a = sid
      · subst ha
        rw [List.erase_cons_head] at he
        subst he
        simpa using hx
      · rw [List.erase_cons_tail (by simpa using ha)] at he
        simp at he

/-- Well-formedness of the room registry as a JavaScript
`Map<string, Set<string>>`: unique room keys and duplicate-free member
lists. -/
def RegistryWF (rs : List (String × List String)) : Prop :=
  keysNodup rs ∧ ∀ r ms, mapGet rs r = some ms → ms.Nodup

theorem mapGet_joinRoom_self (rs : List (String × List String))
    (sid room : String) :
    mapGet (joinRoom rs sid room) room
      = some (setAdd ((mapGet rs room).getD []) sid) := by
  simp [joinRoom, mapGet_mapSet_self]

theorem mapGet_joinRoom_ne (rs : List (String × List String))
    {sid room r : String} (h : r ≠ room) :
    mapGet (joinRoom rs sid room) r = mapGet rs r := by
  simp [joinRoom, mapGet_mapSet_ne _ _ h]

theorem registryWF_joinRoom {rs : List (String × List String)}
    (sid room : String) (h : RegistryWF rs) :
    RegistryWF (joinRoom rs sid room) := by
  refine ⟨keysNodup_mapSet _ _ h.1, fun r ms hm => ?_⟩
  by_cases hr : r = room
  · subst hr
    rw [mapGet_joinRoom_self] at hm
    cases hm
    cases hg : mapGet rs r with
    | none => simp [hg, nodup_setAdd]
    | some ms0 => simpa [hg] using nodup_setAdd sid (h.2 r ms0 hg)
  · rw [mapGet_joinRoom_ne _ hr] at hm
    exact h.2 r ms hm

theorem mapGet_leaveRoom_ne (rs : List (String × List String))
    {sid room r : String} (h : r ≠ room) :
    mapGet (leaveRoom rs sid room) r = mapGet rs r := by
  unfold leaveRoom
  cases hg : mapGet rs room with
  | none => rfl
  | some ms =>
      by_cases he : ms.erase sid = []
      · simp [he, mapGet_mapDelete_ne _ h]
      · simp [he, mapGet_mapSet_ne _ _ h]

theorem leaveRoom_of_get_none {rs : List (String × List String)}
    {sid room : String} (hg : mapGet rs room = none) :
    leaveRoom rs sid room = rs := by
  simp [leaveRoom, hg]

theorem leaveRoom_of_erase_nil {rs : List (String × List String)}
    {sid room : String} {ms : List String} (hg : mapGet rs room = some ms)
    (he : ms.erase sid = []) : leaveRoom rs sid room = mapDelete rs room := by
  simp [leaveRoom, hg, he]

theorem leaveRoom_of_erase_ne_nil {rs : List (String × List String)}
    {sid room : String} {ms : List String} (hg : mapGet rs room = some ms)
    (he : ¬ ms.erase sid = []) :
    leaveRoom rs sid room = mapSet rs room (ms.erase sid) := by
  simp [leaveRoom, hg, he]

theorem registryWF_leaveRoom {rs : List (String × List String)}
    (sid room : String) (h : RegistryWF rs) :
    RegistryWF (leaveRoom rs sid room) := by
  cases hg : mapGet rs room with
  | none => rw [leaveRoom_of_get_none hg]; exact h
  | some ms =>
      by_cases he : ms.erase sid = []
      · rw [leaveRoom_of_erase_nil hg he]
        refine ⟨keysNodup_mapDelete _ h.1, fun r ms2 hm => ?_⟩
        by_cases hr : r = room
        · subst hr
          rw [mapGet_mapDelete_self h.1] at hm
          cases hm
        · rw [mapGet_mapDelete_ne _ hr] at hm
          exact h.2 r ms2 hm
      · rw [leaveRoom_of_erase_ne_nil hg he]
        refine ⟨keysNodup_mapSet _ _ h.1, fun r ms2 hm => ?_⟩
        by_cases hr : r = room
        · subst hr
          rw [mapGet_mapSet_self] at hm
          cases hm
          exact (h.2 r ms hg).erase sid
        · rw [mapGet_mapSet_ne _ _ hr] at hm
          exact h.2 r ms2 hm

theorem mem_leaveRoom_iff {rs : List (String × List String)}
    {sid room r x : String} (hk : keysNodup rs) (hx : x ≠ sid) :
    x ∈ getSocketsInRoom (leaveRoom rs sid room) r
      ↔ x ∈ getSocketsInRoom rs r := by
  by_cases hr : r = room
  · subst hr
    cases hg : mapGet rs r with
    | none => rw [leaveRoom_of_get_none hg]
    | some ms =>
        by_cases he : ms.erase sid = []
        · rw [leaveRoom_of_erase_nil hg he]
          unfold getSocketsInRoom
          rw [mapGet_mapDelete_self hk, hg]
          simp only [Option.getD_none, Option.getD_some, List.not_mem_nil,
            false_iff]
          intro hmem
          exact hx (eq_of_mem_of_erase_nil he hmem)
        · rw [leaveRoom_of_erase_ne_nil hg he]
          unfold getSocketsInRoom
          rw [mapGet_mapSet_self, hg]
          simp only [Option.getD_some]
          exact List.mem_erase_of_ne hx
  · unfold getSocketsInRoom
    rw [mapGet_leaveRoom_ne _ hr]

theorem not_mem_leaveRoom_self {rs : List (String × List String)}
    {sid room : String} (h : RegistryWF rs) :
    sid ∉ getSocketsInRoom (leaveRoom rs sid room) room := by
  cases hg : mapGet rs room with
  | none =>
      rw [leaveRoom_of_get_none hg]
      simp [getSocketsInRoom, hg]
  | some ms =>
      by_cases he : ms.erase sid = []
      · rw [leaveRoom_of_erase_nil hg he]
        simp [getSocketsInRoom, mapGet_mapDelete_self h.1]
      · rw [leaveRoom_of_erase_ne_nil hg he]
        unfold getSocketsInRoom
        rw [mapGet_mapSet_self]
        simp only [Option.getD_some]
        intro hmem
        rcases ((h.2 room ms hg).mem_erase_iff).mp hmem with ⟨hne, _⟩
        exact hne rfl

theorem mem_leaveRoom_mono {rs : List (String × List String)}
    {sid room r x : String} (hk : keysNodup rs)
    (h : x ∈ getSocketsInRoom (leaveRoom rs sid room) r) :
    x ∈ getSocketsInRoom rs r := by
  by_cases hr : r = room
  · subst hr
    cases hg : mapGet rs r with
    | none => rwa [leaveRoom_of_get_none hg] at h
    | some ms =>
        by_cases he : ms.erase sid = []
        · rw [leaveRoom_of_erase_nil hg he] at h
          unfold getSocketsInRoom at h
          rw [mapGet_mapDelete_self hk] at h
          simp at h
        · rw [leaveRoom_of_erase_ne_nil hg he] at h
          unfold getSocketsInRoom at h ⊢
          rw [mapGet_mapSet_self] at h
          rw [hg]
          simp only [Option.getD_some] at h ⊢
          exact List.mem_of_mem_erase h
  · unfold getSocketsInRoom at h
    rwa [mapGet_leaveRoom_ne _ hr] at h

/-- The registry part of folding the close handler room loop: each step
only applies `leaveRoom` to the registry. -/
def foldLeave (rs : List (String × List String)) (sid : String)
    (L : List String) : List (String × List String) :=
  L.foldl (fun a r => leaveRoom a sid r) rs

theorem closeStep_snd (so : List (String × Conn)) (hp : Bool) (sid : String)
    (u : Option UserInfo) (acc : List Effect × List (String × List String))
    (room : String) : (closeStep so hp sid u acc room).2 = leaveRoom acc.2 sid room :=
  rfl

theorem foldl_closeStep_snd (so : List (String × Conn)) (hp : Bool)
    (sid : String) (u : Option UserInfo) (L : List String) :
    ∀ acc : List Effect × List (String × List String),
      (L.foldl (closeStep so hp sid u) acc).2 = foldLeave acc.2 sid L := by
  induction L with
  | nil => intro acc; rfl
  | cons r L ih =>
      intro acc
      rw [List.foldl_cons, ih, closeStep_snd]
      rfl

theorem closeConn_snd (st : MState) (hp : Bool) (sid : String)
    (u : Option UserInfo) (L : List String) :
    (closeConn st hp sid u L).2
      = ⟨mapDelete st.sockets sid, foldLeave st.rooms sid L⟩ := by
  show (_, (⟨mapDelete st.sockets sid,
    (L.foldl (closeStep st.sockets hp sid u) ([], st.rooms)).2⟩ : MState)).2 = _
  rw [foldl_closeStep_snd]

theorem registryWF_foldLeave {rs : List (String × List String)} {sid : String}
    (L : List String) (h : RegistryWF rs) : RegistryWF (foldLeave rs sid L) := by
  induction L generalizing rs with
  | nil => exact h
  | cons r L ih => exact ih (registryWF_leaveRoom sid r h)

theorem mem_foldLeave_iff {sid x : String} (L : List String)
    {rs : List (String × List String)} (h : RegistryWF rs) (hx : x ≠ sid)
    (r : String) :
    x ∈ getSocketsInRoom (foldLeave rs sid L) r ↔ x ∈ getSocketsInRoom rs r := by
  induction L generalizing rs with
  | nil => exact Iff.rfl
  | cons r0 L ih =>
      have step := @mem_leaveRoom_iff rs sid r0 r x h.1 hx
      exact (ih (registryWF_leaveRoom sid r0 h)).trans step

theorem mem_foldLeave_mono {sid x : String} (L : List String)
    {rs : List (String × List String)} (h : RegistryWF rs) (r : String)
    (hm : x ∈ getSocketsInRoom (foldLeave rs sid L) r) :
    x ∈ getSocketsInRoom rs r := by
  induction L generalizing rs with
  | nil => exact hm
  | cons r0 L ih =>
      exact mem_leaveRoom_mono h.1 (ih (registryWF_leaveRoom sid r0 h) hm)

theorem not_mem_foldLeave_self {sid : String} (L : List String)
    {rs : List (String × List String)} (h : RegistryWF rs) (r : String)
    (hc : r ∈ L ∨ sid ∉ getSocketsInRoom rs r) :
    sid ∉ getSocketsInRoom (foldLeave rs sid L) r := by
  induction L generalizing rs with
  | nil =>
      rcases hc with hc | hc
      · simp at hc
      · exact hc
  | cons r0 L ih =>
      have hwf2 := @registryWF_leaveRoom rs sid r0 h
      rcases hc with hc | hc
      · rcases List.mem_cons.mp hc with hc | hc
        · subst hc
          exact ih hwf2 (Or.inr (not_mem_leaveRoom_self h))
        · exact ih hwf2 (Or.inl hc)
      · refine ih hwf2 (Or.inr ?_)
        intro hmem
        exact hc (mem_leaveRoom_mono h.1 hmem)

theorem mapGet_mapDelete_some {α : Type} {l : List (String × α)}
    {k k2 : String} {v : α} (hk : keysNodup l)
    (h : mapGet (mapDelete l k) k2 = some v) : mapGet l k2 = some v := by
  by_cases hkk : k2 = k
  · subst hkk
    rw [mapGet_mapDelete_self hk] at h
    cases h
  · rwa [mapGet_mapDelete_ne _ hkk] at h

theorem getSocketsInRoom_joinRoom_self (rs : List (String × List String))
    (sid room : String) :
    getSocketsInRoom (joinRoom rs sid room) room
      = setAdd (getSocketsInRoom rs room) sid := by
  simp [getSocketsInRoom, mapGet_joinRoom_self]

theorem getSocketsInRoom_joinRoom_ne (rs : List (String × List String))
    {sid room r : String} (h : r ≠ room) :
    getSocketsInRoom (joinRoom rs sid room) r = getSocketsInRoom rs r := by
  simp [getSocketsInRoom, mapGet_joinRoom_ne _ h]

/-- Combined invariant carried through the event-loop lifecycle induction:
well-formed maps, every registry member id is a registered socket id,
socket room sets are duplicate-free, and membership symmetry. -/
def Inv (st : MState) : Prop :=
  keysNodup st.sockets ∧
  RegistryWF st.rooms ∧
  (∀ r x, x ∈ getSocketsInRoom st.rooms r → ∃ c, mapGet st.sockets x = some c) ∧
  (∀ sid c, mapGet st.sockets sid = some c → c.rooms.Nodup) ∧
  Symm st

theorem inv_initState : Inv initState := by
  refine ⟨List.nodup_nil, ⟨List.nodup_nil, fun r ms hm => ?_⟩,
    fun r x hx => ?_, fun sid c hc => ?_, fun sid c hc => ?_⟩
  · cases hm
  · simp [initState, getSocketsInRoom, mapGet] at hx
  · cases hc
  · cases hc

theorem applyOpen_sockets (st : MState) (sid : String) (u : Option UserInfo) :
    (applyOpen st sid u).sockets = mapSet st.sockets sid ⟨u, []⟩ := rfl

theorem applyOpen_rooms (st : MState) (sid : String) (u : Option UserInfo) :
    (applyOpen st sid u).rooms = st.rooms := rfl

theorem inv_applyOpen {st : MState} {sid : String} {u : Option UserInfo}
    (h : Inv st) (hfresh : mapGet st.sockets sid = none) :
    Inv (applyOpen st sid u) := by
  obtain ⟨h1, h2, h3, h4, h5⟩ := h
  unfold Inv Symm
  simp only [applyOpen_sockets, applyOpen_rooms]
  refine ⟨keysNodup_mapSet _ _ h1, h2, fun r x hx => ?_, fun s2 c2 hc2 => ?_,
    fun s2 c2 hc2 r => ?_⟩
  · obtain ⟨c, hc⟩ := h3 r x hx
    by_cases hxs : x = sid
    · subst hxs
      rw [hfresh] at hc
      cases hc
    · exact ⟨c, by rwa [mapGet_mapSet_ne _ _ hxs]⟩
  · by_cases hs : s2 = sid
    · subst hs
      rw [mapGet_mapSet_self] at hc2
      cases hc2
      exact List.nodup_nil
    · rw [mapGet_mapSet_ne _ _ hs] at hc2
      exact h4 s2 c2 hc2
  · by_cases hs : s2 = sid
    · subst hs
      rw [mapGet_mapSet_self] at hc2
      cases hc2
      simp only [List.not_mem_nil, false_iff]
      intro hmem
      obtain ⟨c, hc⟩ := h3 r s2 hmem
      rw [hfresh] at hc
      cases hc
    · rw [mapGet_mapSet_ne _ _ hs] at hc2
      exact h5 s2 c2 hc2 r

theorem getSocketsInRoom_leaveRoom_ne (rs : List (String × List String))
    {sid room r : String} (h : r ≠ room) :
    getSocketsInRoom (leaveRoom rs sid room) r = getSocketsInRoom rs r := by
  unfold getSocketsInRoom
  rw [mapGet_leaveRoom_ne _ h]

theorem joinOne_rooms (sid : String) (st : MState) (coll : String) :
    (joinOne sid st coll).rooms = joinRoom st.rooms sid ("collection:" ++ coll) :=
  rfl

theorem joinOne_sockets_of_get {st : MState} {sid : String} {conn : Conn}
    (coll : String) (hconn : mapGet st.sockets sid = some conn) :
    (joinOne sid st coll).sockets
      = mapSet st.sockets sid ⟨conn.user, setAdd conn.rooms ("collection:" ++ coll)⟩ := by
  simp [joinOne, hconn]

theorem inv_joinOne {st : MState} {sid : String} {conn : Conn} (coll : String)
    (h : Inv st) (hconn : mapGet st.sockets sid = some conn) :
    Inv (joinOne sid st coll) ∧
      mapGet (joinOne sid st coll).sockets sid
        = some ⟨conn.user, setAdd conn.rooms ("collection:" ++ coll)⟩ := by
  obtain ⟨h1, h2, h3, h4, h5⟩ := h
  constructor
  · unfold Inv Symm
    rw [joinOne_rooms, joinOne_sockets_of_get coll hconn]
    refine ⟨keysNodup_mapSet _ _ h1, registryWF_joinRoom _ _ h2,
      fun r x hx => ?_, fun s2 c2 hc2 => ?_, fun s2 c2 hc2 r => ?_⟩
    · have hold : x ∈ getSocketsInRoom st.rooms r ∨ x = sid := by
        by_cases hr : r = "collection:" ++ coll
        · subst hr
          rw [getSocketsInRoom_joinRoom_self] at hx
          exact mem_setAdd.mp hx
        · rw [getSocketsInRoom_joinRoom_ne _ hr] at hx
          exact Or.inl hx
      by_cases hxs : x = sid
      · subst hxs
        exact ⟨_, mapGet_mapSet_self _ _ _⟩
      · rcases hold with hold | hold
        · obtain ⟨c, hc⟩ := h3 r x hold
          exact ⟨c, by rwa [mapGet_mapSet_ne _ _ hxs]⟩
        · exact absurd hold hxs
    · by_cases hs : s2 = sid
      · subst hs
        rw [mapGet_mapSet_self] at hc2
        cases hc2
        exact nodup_setAdd _ (h4 s2 conn hconn)
      · rw [mapGet_mapSet_ne _ _ hs] at hc2
        exact h4 s2 c2 hc2
    · by_cases hs : s2 = sid
      · subst hs
        rw [mapGet_mapSet_self] at hc2
        cases hc2
        by_cases hr : r = "collection:" ++ coll
        · subst hr
          rw [getSocketsInRoom_joinRoom_self]
          exact iff_of_true (self_mem_setAdd _ _) (self_mem_setAdd _ _)
        · rw [getSocketsInRoom_joinRoom_ne _ hr]
          simp only [mem_setAdd]
          constructor
          · intro hm
            rcases hm with hm | hm
            · exact (h5 s2 conn hconn r).mp hm
            · exact absurd hm hr
          · intro hm
            exact Or.inl ((h5 s2 conn hconn r).mpr hm)
      · rw [mapGet_mapSet_ne _ _ hs] at hc2
        by_cases hr : r = "collection:" ++ coll
        · subst hr
          rw [getSocketsInRoom_joinRoom_self]
          simp only [mem_setAdd]
          constructor
          · intro hm
            exact Or.inl ((h5 s2 c2 hc2 _).mp hm)
          · intro hm
            rcases hm with hm | hm
            · exact (h5 s2 c2 hc2 _).mpr hm
            · exact absurd hm hs
        · rw [getSocketsInRoom_joinRoom_ne _ hr]
          exact h5 s2 c2 hc2 r
  · rw [joinOne_sockets_of_get coll hconn]
    exact mapGet_mapSet_self _ _ _

theorem leaveOne_rooms (sid : String) (st : MState) (coll : String) :
    (leaveOne sid st coll).rooms = leaveRoom st.rooms sid ("collection:" ++ coll) :=
  rfl

theorem leaveOne_sockets_of_get {st : MState} {sid : String} {conn : Conn}
    (coll : String) (hconn : mapGet st.sockets sid = some conn) :
    (leaveOne sid st coll).sockets
      = mapSet st.sockets sid ⟨conn.user, conn.rooms.erase ("collection:" ++ coll)⟩ := by
  simp [leaveOne, hconn]

theorem inv_leaveOne {st : MState} {sid : String} {conn : Conn} (coll : String)
    (h : Inv st) (hconn : mapGet st.sockets sid = some conn) :
    Inv (leaveOne sid st coll) ∧
      mapGet (leaveOne sid st coll).sockets sid
        = some ⟨conn.user, conn.rooms.erase ("collection:" ++ coll)⟩ := by
  obtain ⟨h1, h2, h3, h4, h5⟩ := h
  constructor
  · unfold Inv Symm
    rw [leaveOne_rooms, leaveOne_sockets_of_get coll hconn]
    refine ⟨keysNodup_mapSet _ _ h1, registryWF_leaveRoom _ _ h2,
      fun r x hx => ?_, fun s2 c2 hc2 => ?_, fun s2 c2 hc2 r => ?_⟩
    · have hold := mem_leaveRoom_mono h2.1 hx
      obtain ⟨c, hc⟩ := h3 r x hold
      by_cases hxs : x = sid
      · subst hxs
        exact ⟨_, mapGet_mapSet_self _ _ _⟩
      · exact ⟨c, by rwa [mapGet_mapSet_ne _ _ hxs]⟩
    · by_cases hs : s2 = sid
      · subst hs
        rw [mapGet_mapSet_self] at hc2
        cases hc2
        exact (h4 s2 conn hconn).erase _
      · rw [mapGet_mapSet_ne _ _ hs] at hc2
        exact h4 s2 c2 hc2
    · by_cases hs : s2 = sid
      · subst hs
        rw [mapGet_mapSet_self] at hc2
        cases hc2
        by_cases hr : r = "collection:" ++ coll
        · subst hr
          refine iff_of_false ?_ (not_mem_leaveRoom_self h2)
          intro hm
          exact (((h4 s2 conn hconn).mem_erase_iff).mp hm).1 rfl
        · rw [List.mem_erase_of_ne hr]
          rw [getSocketsInRoom_leaveRoom_ne _ hr]
          exact h5 s2 conn hconn r
      · rw [mapGet_mapSet_ne _ _ hs] at hc2
        rw [mem_leaveRoom_iff h2.1 hs]
        exact h5 s2 c2 hc2 r
  · rw [leaveOne_sockets_of_get coll hconn]
    exact mapGet_mapSet_self _ _ _

theorem inv_handleJoinCollection {st : MState} {sid : String}
    (colls : List String) (h : Inv st)
    (hreg : ∃ c, mapGet st.sockets sid = some c) :
    Inv (handleJoinCollection st sid colls) := by
  induction colls generalizing st with
  | nil => exact h
  | cons coll colls ih =>
      obtain ⟨c, hc⟩ := hreg
      obtain ⟨hinv, hget⟩ := inv_joinOne coll h hc
      show Inv (handleJoinCollection (joinOne sid st coll) sid colls)
      exact ih hinv ⟨_, hget⟩

theorem inv_handleUnsubscribe {st : MState} {sid : String}
    (colls : List String) (h : Inv st)
    (hreg : ∃ c, mapGet st.sockets sid = some c) :
    Inv (handleUnsubscribe st sid colls) := by
  induction colls generalizing st with
  | nil => exact h
  | cons coll colls ih =>
      obtain ⟨c, hc⟩ := hreg
      obtain ⟨hinv, hget⟩ := inv_leaveOne coll h hc
      show Inv (handleUnsubscribe (leaveOne sid st coll) sid colls)
      exact ih hinv ⟨_, hget⟩

theorem inv_mk {so : List (String × Conn)} {rs : List (String × List String)} :
    Inv ⟨so, rs⟩ ↔
      (keysNodup so ∧ RegistryWF rs ∧
        (∀ r x, x ∈ getSocketsInRoom rs r → ∃ c, mapGet so x = some c) ∧
        (∀ sid c, mapGet so sid = some c → c.rooms.Nodup) ∧
        (∀ sid conn, mapGet so sid = some conn →
          ∀ r, r ∈ conn.rooms ↔ sid ∈ getSocketsInRoom rs r)) :=
  Iff.rfl

theorem inv_applyClose {st : MState} {sid : String} (h : Inv st) :
    Inv (applyClose st sid) := by
  cases hg : mapGet st.sockets sid with
  | none => simpa [applyClose, hg] using h
  | some conn =>
      have heq : applyClose st sid
          = ⟨mapDelete st.sockets sid, foldLeave st.rooms sid conn.rooms⟩ := by
        simp [applyClose, hg, closeConn_snd]
      obtain ⟨h1, h2, h3, h4, h5⟩ := h
      have hnotin : ∀ r, sid ∉ getSocketsInRoom (foldLeave st.rooms sid conn.rooms) r := by
        intro r
        by_cases hr : r ∈ conn.rooms
        · exact not_mem_foldLeave_self _ h2 r (Or.inl hr)
        · refine not_mem_foldLeave_self _ h2 r (Or.inr ?_)
          intro hm
          exact hr ((h5 sid conn hg r).mpr hm)
      rw [heq, inv_mk]
      refine ⟨keysNodup_mapDelete _ h1, registryWF_foldLeave _ h2,
        fun r x hx => ?_, fun s2 c2 hc2 => ?_, fun s2 c2 hc2 r => ?_⟩
      · have hxs : x ≠ sid := by
          intro hh
          exact hnotin r (hh ▸ hx)
        obtain ⟨c, hc⟩ := h3 r x (mem_foldLeave_mono _ h2 r hx)
        exact ⟨c, by rwa [mapGet_mapDelete_ne _ hxs]⟩
      · exact h4 s2 c2 (mapGet_mapDelete_some h1 hc2)
      · by_cases hs : s2 = sid
        · subst hs
          rw [mapGet_mapDelete_self h1] at hc2
          cases hc2
        · rw [mapGet_mapDelete_ne _ hs] at hc2
          rw [mem_foldLeave_iff _ h2 hs r]
          exact h5 s2 c2 hc2 r

theorem inv_reachableM {st : MState} (h : ReachableM st) : Inv st := by
  induction h with
  | init => exact inv_initState
  | openStep h hfresh ih => exact inv_applyOpen ih hfresh
  | closeStep h ih => exact inv_applyClose ih
  | msgJoinStep h hc ih => exact inv_handleJoinCollection _ ih ⟨_, hc⟩
  | msgLeaveStep h hc ih => exact inv_handleUnsubscribe _ ih ⟨_, hc⟩

/-- No room bound in the registry has an empty member list. -/
def NoEmptyRooms (rs : List (String × List String)) : Prop :=
  ∀ r ms, mapGet rs r = some ms → ms ≠ []

theorem noEmpty_joinRoom {rs : List (String × List String)} (sid room : String)
    (h : NoEmptyRooms rs) : NoEmptyRooms (joinRoom rs sid room) := by
  intro r ms hm
  by_cases hr : r = room
  · subst hr
    rw [mapGet_joinRoom_self] at hm
    cases hm
    exact setAdd_ne_nil _ _
  · rw [mapGet_joinRoom_ne _ hr] at hm
    exact h r ms hm

theorem noEmpty_leaveRoom {rs : List (String × List String)} (sid room : String)
    (hk : keysNodup rs) (h : NoEmptyRooms rs) :
    NoEmptyRooms (leaveRoom rs sid room) := by
  intro r ms hm
  cases hg : mapGet rs room with
  | none =>
      rw [leaveRoom_of_get_none hg] at hm
      exact h r ms hm
  | some ms0 =>
      by_cases he : ms0.erase sid = []
      · rw [leaveRoom_of_erase_nil hg he] at hm
        by_cases hr : r = room
        · subst hr
          rw [mapGet_mapDelete_self hk] at hm
          cases hm
        · rw [mapGet_mapDelete_ne _ hr] at hm
          exact h r ms hm
      · rw [leaveRoom_of_erase_ne_nil hg he] at hm
        by_cases hr : r = room
        · subst hr
          rw [mapGet_mapSet_self] at hm
          cases hm
          exact he
        · rw [mapGet_mapSet_ne _ _ hr] at hm
          exact h r ms hm

theorem keysNodup_joinRoom {rs : List (String × List String)}
    (sid room : String) (h : keysNodup rs) : keysNodup (joinRoom rs sid room) :=
  keysNodup_mapSet _ _ h

theorem keysNodup_leaveRoom {rs : List (String × List String)}
    (sid room : String) (h : keysNodup rs) : keysNodup (leaveRoom rs sid room) := by
  cases hg : mapGet rs room with
  | none => rwa [leaveRoom_of_get_none hg]
  | some ms =>
      by_cases he : ms.erase sid = []
      · rw [leaveRoom_of_erase_nil hg he]
        exact keysNodup_mapDelete _ h
      · rw [leaveRoom_of_erase_ne_nil hg he]
        exact keysNodup_mapSet _ _ h

theorem runRoomOps_wf (ops : List RoomOp) :
    keysNodup (runRoomOps ops) ∧ NoEmptyRooms (runRoomOps ops) := by
  suffices hstep : ∀ (ops : List RoomOp) (rs : List (String × List String)),
      keysNodup rs → NoEmptyRooms rs →
      keysNodup (ops.foldl applyRoomOp rs) ∧ NoEmptyRooms (ops.foldl applyRoomOp rs) by
    refine hstep ops [] List.nodup_nil (fun r ms hm => ?_)
    cases hm
  intro ops
  induction ops with
  | nil => exact fun rs hk hn => ⟨hk, hn⟩
  | cons op ops ih =>
      intro rs hk hn
      cases op with
      | join sid room =>
          exact ih _ (keysNodup_joinRoom sid room hk) (noEmpty_joinRoom sid room hn)
      | leave sid room =>
          exact ih _ (keysNodup_leaveRoom sid room hk)
            (noEmpty_leaveRoom sid room hk hn)

theorem joinRoom_idem (rs : List (String × List String)) (sid room : String) :
    joinRoom (joinRoom rs sid room) sid room = joinRoom rs sid room := by
  unfold joinRoom
  rw [mapGet_mapSet_self]
  simp only [Option.getD_some]
  rw [setAdd_of_mem (self_mem_setAdd _ _), mapSet_mapSet_self]

theorem leaveRoom_idem {rs : List (String × List String)} {sid room : String}
    (hk : keysNodup rs) (hnd : ∀ ms, mapGet rs room = some ms → ms.Nodup) :
    leaveRoom (leaveRoom rs sid room) sid room = leaveRoom rs sid room := by
  cases hg : mapGet rs room with
  | none => rw [leaveRoom_of_get_none hg, leaveRoom_of_get_none hg]
  | some ms =>
      by_cases he : ms.erase sid = []
      · rw [leaveRoom_of_erase_nil hg he]
        exact leaveRoom_of_get_none (mapGet_mapDelete_self hk)
      · rw [leaveRoom_of_erase_ne_nil hg he]
        have hnotin : sid ∉ ms.erase sid := by
          intro hm
          exact (((hnd ms hg).mem_erase_iff).mp hm).1 rfl
        have herase : (ms.erase sid).erase sid = ms.erase sid :=
          List.erase_of_not_mem hnotin
        rw [leaveRoom_of_erase_ne_nil (mapGet_mapSet_self _ _ _) (by rw [herase]; exact he)]
        rw [herase, mapSet_mapSet_self]

theorem mapGet_foldl_onRegister (regs : List (String × Nat)) (ty : String) :
    ∀ m : List (String × Nat),
      mapGet (regs.foldl (fun m p => onRegister m p.1 p.2) m) ty
        = match lastReg regs ty with
          | some h => some h
          | none => mapGet m ty := by
  induction regs with
  | nil => intro m; rfl
  | cons p rest ih =>
      intro m
      rw [List.foldl_cons, ih]
      cases hl : lastReg rest ty with
      | some h => simp [lastReg, hl]
      | none =>
          by_cases hp : p.1 = ty
          · subst hp
            simp [lastReg, hl, onRegister, mapGet_mapSet_self]
          · simp [lastReg, hl, hp, onRegister, mapGet_mapSet_ne _ _ (fun hh : ty = p.1 => hp hh.symm)]

theorem mapGet_registerAll (regs : List (String × Nat)) (ty : String) :
    mapGet (registerAll regs) ty = lastReg regs ty := by
  unfold registerAll
  rw [mapGet_foldl_onRegister]
  cases hl : lastReg regs ty with
  | some h => rfl
  | none => rfl

/-- Whether an effect is a socket send carrying the given label. -/
def isSendLabeled (label : String) : Effect → Bool
  | Effect.send _ l _ => l == label
  | _ => false

/-- Number of sends in an effect list addressed to one socket with one
label and one payload. -/
def sendCount (effs : List Effect) (sid label : String) (d : MsgData) : Nat :=
  (effs.filter fun eff =>
    match eff with
    | Effect.send s l d2 => s == sid && l == label && d2 == d
    | _ => false).length

theorem sendCount_append (a b : List Effect) (sid label : String)
    (d : MsgData) :
    sendCount (a ++ b) sid label d = sendCount a sid label d + sendCount b sid label d := by
  simp [sendCount, List.filter_append]

theorem sendCount_publishToRedis (hp : Bool) (k r l : String) (d : MsgData)
    (sid label : String) (d2 : MsgData) :
    sendCount (publishToRedis hp k r l d) sid label d2 = 0 := by
  cases hp <;> simp [publishToRedis, sendCount]

theorem sendCount_allSends_zero {so : List (String × Conn)} {sid : String}
    (label : String) (d : MsgData) (h : sid ∉ so.map Prod.fst) :
    sendCount (so.map fun p => Effect.send p.1 label d) sid label d = 0 := by
  induction so with
  | nil => rfl
  | cons p rest ih =>
      obtain ⟨k, v⟩ := p
      simp only [List.map_cons, List.mem_cons, not_or] at h
      have hk : ¬ (k == sid) = true := by
        simp only [beq_iff_eq]
        exact fun hh => h.1 hh.symm
      simp only [List.map_cons, sendCount, List.filter_cons]
      rw [if_neg (by simp [hk])]
      exact ih h.2

theorem sendCount_allSends_one {so : List (String × Conn)} {sid : String}
    {c : Conn} (label : String) (d : MsgData) (hnd : keysNodup so)
    (hget : mapGet so sid = some c) :
    sendCount (so.map fun p => Effect.send p.1 label d) sid label d = 1 := by
  induction so with
  | nil => cases hget
  | cons p rest ih =>
      obtain ⟨k, v⟩ := p
      simp only [keysNodup, List.map_cons, List.nodup_cons] at hnd
      by_cases hk : k = sid
      · subst hk
        simp only [List.map_cons, sendCount, List.filter_cons]
        rw [if_pos (by simp)]
        have hzero := sendCount_allSends_zero label d hnd.1
        simp only [sendCount] at hzero
        simp [hzero]
      · simp only [mapGet, if_neg hk] at hget
        simp only [List.map_cons, sendCount, List.filter_cons]
        rw [if_neg (by simp [hk])]
        exact ih hnd.2 hget

theorem filter_allSends_other_label {so : List (String × Conn)}
    {label label2 : String} (d : MsgData) (h : label2 ≠ label) :
    (so.map fun p => Effect.send p.1 label2 d).filter (isSendLabeled label) = [] := by
  induction so with
  | nil => rfl
  | cons p rest ih =>
      simp only [List.map_cons, List.filter_cons]
      rw [if_neg (by simp [isSendLabeled, h])]
      exact ih

theorem filter_publishToRedis_isSend (hp : Bool) (k r l : String) (d : MsgData)
    (label : String) :
    (publishToRedis hp k r l d).filter (isSendLabeled label) = [] := by
  cases hp <;> simp [publishToRedis, isSendLabeled]

theorem emitEvent_no_predicate {opts : Options} {st : MState} {e : Event}
    {auth : List (String × (UserInfo → Event → Bool))}
    (hauth : opts.authorize = some auth)
    (hlookup : mapGet auth e.collection = none)
    (hpass : passesFilter opts e = true) :
    emitEvent opts st e
      = some ((st.sockets.map fun p =>
            Effect.send p.1 "payload:event:all" (MsgData.ev (finalEventOf opts e)))
          ++ publishToRedis opts.hasPub "event" ("collection:" ++ e.collection)
              "payload:event" (MsgData.ev (finalEventOf opts e))) := by
  simp [emitEvent, hauth, hlookup, hpass]

theorem authSends_isSome {so : List (String × Conn)}
    {handler : UserInfo → Event → Bool} {fe : Event} (L : List String)
    (h : ∀ sid ∈ L, (mapGet so sid).isSome) :
    (authSends so handler fe L).isSome := by
  induction L with
  | nil => rfl
  | cons sid L ih =>
      have hsid := h sid (List.mem_cons_self _ _)
      cases hg : mapGet so sid with
      | none => rw [hg] at hsid; cases hsid
      | some conn =>
          have htail := ih (fun s hs => h s (List.mem_cons_of_mem _ hs))
          obtain ⟨tl, htl⟩ := Option.isSome_iff_exists.mp htail
          simp [authSends, hg, htl]

theorem emitEvent_isSome (opts : Options) (st : MState) (e : Event)
    (hpre : ∀ sid ∈ getSocketsInRoom st.rooms ("collection:" ++ e.collection),
      (mapGet st.sockets sid).isSome = true) :
    (emitEvent opts st e).isSome = true := by
  by_cases hp : passesFilter opts e = false
  · simp [emitEvent, hp]
  · cases hauth : opts.authorize with
    | none => simp [emitEvent, hp, hauth]
    | some auth =>
        cases hlookup : mapGet auth e.collection with
        | none => simp [emitEvent, hp, hauth, hlookup]
        | some handler =>
            have hs := @authSends_isSome st.sockets handler
              (finalEventOf opts e) _ hpre
            obtain ⟨l, hl⟩ := Option.isSome_iff_exists.mp hs
            simp [emitEvent, hp, hauth, hlookup, hl]

/-- Concrete identity fixture used by the claim instances. -/
def uAlice : UserInfo := ⟨"u1", none, "users", none⟩

/-- Concrete posts event fixture. -/
def ePosts : Event := ⟨EventType.update, "posts", "7", none, none, "t"⟩

/-- Concrete event fixture on collection `a`. -/
def eCollA : Event := ⟨EventType.update, "a", "7", none, none, "t"⟩

/-- C1: the claim says an inbound relay message of kind `event` or
`room-broadcast` triggers local delivery only and performs no publish back
to the shared channel. The code contradicts this (and its own local-only
comment): `handleRedisMessage` calls `broadcastToRoom`, which ends with
`publishToRedis`. Evaluated at the failing input — one registered member
in the named room, pub client configured, an inbound envelope of kind
`event` — the handler emits the local send and then a `room-broadcast`
publish back to the channel. -/
theorem c1_relay_republishes :
    handleRedisMessage ⟨[("s1", ⟨some uAlice, ["room:x"]⟩)], [("room:x", ["s1"])]⟩
        true ⟨"event", "room:x", "payload:event", MsgData.raw "d", MsgData.raw "d"⟩
      = [Effect.send "s1" "payload:event" (MsgData.raw "d"),
         Effect.publish "room-broadcast" "room:x" "payload:event" (MsgData.raw "d")] := by
  decide

/-- C2 counterexample: with a configured transform that rewrites the
collection from `a` to `b`, `emitEvent` differs from the spec-words
variant in which all subsequent steps (room name, predicate selection)
use the transformed event: the code still targets room `collection:a`. -/
theorem c2_counterexample :
    emitEvent ⟨none, some (fun e => ⟨e.type, "b", e.id, e.doc, e.user, e.timestamp⟩), none, false⟩
        ⟨[("s1", ⟨some uAlice, ["collection:a"]⟩)], [("collection:a", ["s1"])]⟩ eCollA
      ≠ emitEventSpecTransformed
          ⟨none, some (fun e => ⟨e.type, "b", e.id, e.doc, e.user, e.timestamp⟩), none, false⟩
          ⟨[("s1", ⟨some uAlice, ["collection:a"]⟩)], [("collection:a", ["s1"])]⟩ eCollA := by
  decide

/-- C2 (amended): when a global transform is configured, delivery and
relay use the transformed event, but the target room name and the
predicate selection are computed from the original event collection;
hence the claim as stated holds exactly when the transform preserves the
collection field, in which case `emitEvent` coincides with the spec-words
variant `emitEventSpecTransformed`. -/
theorem c2_transform_collection_preserved {opts : Options} {st : MState}
    {e : Event} {f : Event → Event} (ht : opts.transformEvent = some f)
    (hc : (f e).collection = e.collection) :
    emitEvent opts st e = emitEventSpecTransformed opts st e := by
  have hfe : finalEventOf opts e = f e := by simp [finalEventOf, ht]
  unfold emitEvent emitEventSpecTransformed
  rw [hfe]
  simp only [hc]

/-- C2 witness: a transform that only edits the document snapshot
preserves the collection, and the two dispatch functions then agree. -/
theorem c2_witness :
    emitEvent ⟨none, some (fun e => ⟨e.type, e.collection, e.id, some "x", e.user, e.timestamp⟩), none, false⟩
        ⟨[("s1", ⟨some uAlice, ["collection:a"]⟩)], [("collection:a", ["s1"])]⟩ eCollA
      = emitEventSpecTransformed
          ⟨none, some (fun e => ⟨e.type, e.collection, e.id, some "x", e.user, e.timestamp⟩), none, false⟩
          ⟨[("s1", ⟨some uAlice, ["collection:a"]⟩)], [("collection:a", ["s1"])]⟩ eCollA :=
  c2_transform_collection_preserved rfl rfl

/-- C3 counterexample: the public registry method `joinRoom` updates only
the room registry and not the socket room set, so after an open followed
by a raw `joinRoom` call, membership symmetry fails. -/
theorem c3_counterexample :
    ¬ Symm (runOps [Op.conn "c" none, Op.rawJoin "c" "r"]) := by
  intro h
  have h2 := (h "c" ⟨none, []⟩ (by decide) "r").mpr (by decide)
  simp at h2

/-- C3 (amended): membership symmetry holds in every state reachable
through the event-loop lifecycle operations — open with a fresh id,
close, and the built-in message-based join and leave — while the public
registry-only methods `joinRoom` and `leaveRoom` can break it. -/
theorem c3_symm_of_reachable {st : MState} (h : ReachableM st) : Symm st :=
  (inv_reachableM h).2.2.2.2

/-- C3 witness: symmetry in the concrete state reached by opening a fresh
connection and joining the `posts` collection through a message. -/
theorem c3_witness :
    Symm (handleJoinCollection (applyOpen initState "c" (some uAlice)) "c" ["posts"]) :=
  c3_symm_of_reachable
    (@ReachableM.msgJoinStep (applyOpen initState "c" (some uAlice)) "c" ["posts"]
      ⟨some uAlice, []⟩
      (@ReachableM.openStep initState "c" (some uAlice) ReachableM.init (by decide))
      (by decide))

/-- C4 counterexample: both members of custom room `room:alpha` are
registered and the first one closes; since `room:alpha` matches neither
the `project:` nor the `actor:` prefix, the close handler produces no
effect at all — in particular the second member receives no user-left
notification, contradicting the claim. -/
theorem c4_counterexample :
    (closeConn ⟨[("c1", ⟨some uAlice, ["room:alpha"]⟩),
                 ("c2", ⟨some ⟨"u2", none, "users", none⟩, ["room:alpha"]⟩)],
                [("room:alpha", ["c1", "c2"])]⟩
        true "c1" (some uAlice) ["room:alpha"]).1 = [] := by
  decide

/-- C4 (amended): when a member of custom room `room:alpha` closes, no
user-left notification is sent (the close handler notifies only rooms
prefixed `project:` or `actor:`), but the membership removal still
happens: the room member query afterwards excludes the closed connection
and the connection table entry is gone. -/
theorem c4_close_custom_room :
    (closeConn ⟨[("c1", ⟨some uAlice, ["room:alpha"]⟩),
                 ("c2", ⟨some ⟨"u2", none, "users", none⟩, ["room:alpha"]⟩)],
                [("room:alpha", ["c1", "c2"])]⟩
        true "c1" (some uAlice) ["room:alpha"]).1.filter (isSendLabeled "project:user-left") = []
    ∧ (closeConn ⟨[("c1", ⟨some uAlice, ["room:alpha"]⟩),
                 ("c2", ⟨some ⟨"u2", none, "users", none⟩, ["room:alpha"]⟩)],
                [("room:alpha", ["c1", "c2"])]⟩
        true "c1" (some uAlice) ["room:alpha"]).1.filter (isSendLabeled "actor:user-left") = []
    ∧ getSocketsInRoom (closeConn ⟨[("c1", ⟨some uAlice, ["room:alpha"]⟩),
                 ("c2", ⟨some ⟨"u2", none, "users", none⟩, ["room:alpha"]⟩)],
                [("room:alpha", ["c1", "c2"])]⟩
        true "c1" (some uAlice) ["room:alpha"]).2.rooms "room:alpha" = ["c2"]
    ∧ mapGet (closeConn ⟨[("c1", ⟨some uAlice, ["room:alpha"]⟩),
                 ("c2", ⟨some ⟨"u2", none, "users", none⟩, ["room:alpha"]⟩)],
                [("room:alpha", ["c1", "c2"])]⟩
        true "c1" (some uAlice) ["room:alpha"]).2.sockets "c1" = none := by
  refine ⟨by decide, by decide, by decide, by decide⟩

/-- C5: when the event passes the global filter, authorization
configuration exists, and no predicate is registered for the event
collection, the room-scoped path delivers nothing — the effect list
contains no `payload:event` send — while every registered connection
receives exactly one `payload:event:all` send carrying the (possibly
transformed) event. -/
theorem c5_default_deny (opts : Options) (st : MState) (e : Event)
    (auth : List (String × (UserInfo → Event → Bool)))
    (hauth : opts.authorize = some auth)
    (hlookup : mapGet auth e.collection = none)
    (hpass : passesFilter opts e = true) (hnd : keysNodup st.sockets) :
    ∃ effs, emitEvent opts st e = some effs ∧
      effs.filter (isSendLabeled "payload:event") = [] ∧
      ∀ sid c, mapGet st.sockets sid = some c →
        sendCount effs sid "payload:event:all"
          (MsgData.ev (finalEventOf opts e)) = 1 := by
  refine ⟨_, emitEvent_no_predicate hauth hlookup hpass, ?_, ?_⟩
  · rw [List.filter_append, filter_allSends_other_label _ (by decide),
      filter_publishToRedis_isSend]
    rfl
  · intro sid c hc
    rw [sendCount_append, sendCount_allSends_one _ _ hnd hc,
      sendCount_publishToRedis]

/-- C5 witness: authorization configured for collection `other` only;
emitting a `posts` event with one registered member of the posts room
yields no room-scoped send and exactly one global send. -/
theorem c5_witness :
    ∃ effs, emitEvent ⟨none, none, some [("other", fun _ _ => true)], true⟩
        ⟨[("s1", ⟨some uAlice, ["collection:posts"]⟩)],
         [("collection:posts", ["s1"])]⟩ ePosts = some effs ∧
      effs.filter (isSendLabeled "payload:event") = [] ∧
      ∀ sid c, mapGet [("s1", (⟨some uAlice, ["collection:posts"]⟩ : Conn))] sid = some c →
        sendCount effs sid "payload:event:all"
          (MsgData.ev (finalEventOf ⟨none, none, some [("other", fun _ _ => true)], true⟩ ePosts)) = 1 :=
  c5_default_deny ⟨none, none, some [("other", fun _ _ => true)], true⟩
    ⟨[("s1", ⟨some uAlice, ["collection:posts"]⟩)], [("collection:posts", ["s1"])]⟩
    ePosts [("other", fun _ _ => true)] rfl rfl rfl
    (by unfold keysNodup; decide)

/-- C6: if the abort flag is observed set when the handshake task
resumes, the outcome is the silent one: no transport response (neither a
rejection nor an upgrade) is written, no connection is registered, and
the connection table is left unchanged — for every combination of
verification or lookup failure and identity lookup result. -/
theorem c6_abort_safety (errored : Bool) (userDoc : Option UserInfo)
    (st : MState) (sid : String) :
    upgradeResume true errored userDoc = UpgradeResult.silent ∧
    transportResponses (upgradeResume true errored userDoc) = 0 ∧
    registersConnection (upgradeResume true errored userDoc) = false ∧
    applyUpgradeResult st sid (upgradeResume true errored userDoc) = st := by
  cases errored <;> cases userDoc <;>
    simp [upgradeResume, transportResponses, registersConnection,
      applyUpgradeResult]

/-- C7: the reserved labels `subscribe`, `join-collection` and
`unsubscribe` always dispatch to the built-in join and leave logic, no
matter what custom handlers have been registered; for any other label,
the dispatcher invokes the most recently registered handler for that
label. -/
theorem c7_reserved_labels :
    (∀ regs : List (String × Nat),
      handleMessageDispatch (registerAll regs) "subscribe" = Dispatch.joinCollection ∧
      handleMessageDispatch (registerAll regs) "join-collection" = Dispatch.joinCollection ∧
      handleMessageDispatch (registerAll regs) "unsubscribe" = Dispatch.unsubscribe) ∧
    (∀ (regs : List (String × Nat)) (ty : String) (h : Nat),
      ty ≠ "subscribe" → ty ≠ "join-collection" → ty ≠ "unsubscribe" →
      lastReg regs ty = some h →
      handleMessageDispatch (registerAll regs) ty = Dispatch.custom h) := by
  constructor
  · intro regs
    refine ⟨rfl, rfl, rfl⟩
  · intro regs ty h h1 h2 h3 hlast
    unfold handleMessageDispatch
    rw [if_neg h1, if_neg h2, if_neg h3, mapGet_registerAll, hlast]

/-- C7 witness: registering twice under the label `chat` dispatches to
the second handler, and a handler registered under `subscribe` is never
invoked. -/
theorem c7_witness :
    handleMessageDispatch (registerAll [("subscribe", 9), ("chat", 1), ("chat", 2)])
        "subscribe" = Dispatch.joinCollection ∧
    handleMessageDispatch (registerAll [("subscribe", 9), ("chat", 1), ("chat", 2)])
        "chat" = Dispatch.custom 2 :=
  ⟨(c7_reserved_labels.1 [("subscribe", 9), ("chat", 1), ("chat", 2)]).1,
    c7_reserved_labels.2 [("subscribe", 9), ("chat", 1), ("chat", 2)] "chat" 2
      (by decide) (by decide) (by decide) (by decide)⟩

/-- C8: in every registry state reachable through join and leave
operations, no room bound in the registry has an empty member list; and
a leave that erases the last member of a room deletes the room binding in
that same operation. -/
theorem c8_no_empty_rooms :
    (∀ (ops : List RoomOp) (r : String) (ms : List String),
      mapGet (runRoomOps ops) r = some ms → ms ≠ []) ∧
    (∀ (rs : List (String × List String)) (sid r : String) (ms : List String),
      keysNodup rs → mapGet rs r = some ms → ms.erase sid = [] →
      mapGet (leaveRoom rs sid r) r = none) :=
  ⟨fun ops r ms hm => (runRoomOps_wf ops).2 r ms hm,
   fun _ _ _ _ hk hg he => by
     rw [leaveRoom_of_erase_nil hg he]
     exact mapGet_mapDelete_self hk⟩

/-- C8 witness: after a single join the room holds one member, which is
nonempty, and leaving with that member deletes the room binding. -/
theorem c8_witness :
    (["c"] : List String) ≠ [] ∧
    mapGet (leaveRoom [("r", ["c"])] "c" "r") "r" = none :=
  ⟨c8_no_empty_rooms.1 [RoomOp.join "c" "r"] "r" ["c"] (by decide),
   c8_no_empty_rooms.2 [("r", ["c"])] "c" "r" ["c"]
     (by unfold keysNodup; decide) (by decide) (by decide)⟩

/-- C9: `joinRoom` is idempotent; joining an absent room yields a
one-element member list; leaving an absent (never joined or already
deleted) room is a no-op; and `leaveRoom` is idempotent on well-formed
registries. -/
theorem c9_join_leave_idempotent (rs : List (String × List String))
    (sid room : String) :
    joinRoom (joinRoom rs sid room) sid room = joinRoom rs sid room ∧
    (mapGet rs room = none →
      getSocketsInRoom (joinRoom rs sid room) room = [sid]) ∧
    (mapGet rs room = none → leaveRoom rs sid room = rs) ∧
    (keysNodup rs → (∀ ms, mapGet rs room = some ms → ms.Nodup) →
      leaveRoom (leaveRoom rs sid room) sid room = leaveRoom rs sid room) := by
  refine ⟨joinRoom_idem rs sid room, fun hg => ?_, fun hg => leaveRoom_of_get_none hg,
    fun hk hnd => leaveRoom_idem hk hnd⟩
  rw [getSocketsInRoom_joinRoom_self]
  unfold getSocketsInRoom
  rw [hg]
  simp [setAdd]

/-- C9 witness: from the empty registry, joining twice keeps one member
and leaving twice (including on the absent room) is harmless. -/
theorem c9_witness :
    joinRoom (joinRoom [] "c" "r") "c" "r" = joinRoom [] "c" "r" ∧
    getSocketsInRoom (joinRoom [] "c" "r") "r" = ["c"] ∧
    leaveRoom [] "c" "r" = [] ∧
    leaveRoom (leaveRoom [] "c" "r") "c" "r" = leaveRoom [] "c" "r" := by
  obtain ⟨h1, h2, h3, h4⟩ := c9_join_leave_idempotent [] "c" "r"
  exact ⟨h1, h2 rfl, h3 rfl,
    h4 (by unfold keysNodup; decide) (fun ms hm => Option.noConfusion hm)⟩

/-- C10: the authorized delivery path of `emitEvent` is total whenever
every member id of the target room is present in the connection table; at
a concrete state whose room holds an id absent from the table, the
authorized path has no defined result (the unguarded user-data read),
whereas `broadcastToRoom` on the same state simply skips the absent id
and terminates normally. -/
theorem c10_auth_path_presence :
    (∀ (opts : Options) (st : MState) (e : Event),
      (∀ sid ∈ getSocketsInRoom st.rooms ("collection:" ++ e.collection),
        (mapGet st.sockets sid).isSome = true) →
      (emitEvent opts st e).isSome = true) ∧
    emitEvent ⟨none, none, some [("posts", fun _ _ => true)], false⟩
      ⟨[], [("collection:posts", ["ghost"])]⟩ ePosts = none ∧
    broadcastToRoom [("collection:posts", ["ghost"])] [] false
      "collection:posts" (MsgData.ev ePosts) "payload:event" none = [] :=
  ⟨emitEvent_isSome, by decide, by decide⟩

/-- C10 witness: with the sole room member registered, the authorized
path completes. -/
theorem c10_witness :
    (emitEvent ⟨none, none, some [("posts", fun _ _ => true)], false⟩
      ⟨[("s1", ⟨some uAlice, ["collection:posts"]⟩)],
       [("collection:posts", ["s1"])]⟩ ePosts).isSome = true :=
  c10_auth_path_presence.1 ⟨none, none, some [("posts", fun _ _ => true)], false⟩
    ⟨[("s1", ⟨some uAlice, ["collection:posts"]⟩)], [("collection:posts", ["s1"])]⟩
    ePosts (by decide)

end UWS
